import Mathlib

/-!
Verification of the chunking / framing / reassembly / grid-layout core of the
multi-QR-code file-transfer program.

Strings are modelled as lists of characters (`Str`).  The functions below are
shallow embeddings of the corresponding Python functions:

* `split_text`               — generate_qr_array.py, split_text
* `text_with_index`          — generate_qr_array.py, generate_qr_code (the
                               tagged data payload "IDX:%03d:" + text; image
                               rendering is external and not modelled)
* `arrange_qr_codes_in_array`— generate_qr_array.py, arrange_qr_codes_in_array
                               (grid dimensioning and cell placement; pixel
                               arithmetic and image normalisation only move
                               whole images and are not modelled)
* `combine_qr_code_data`     — read_qr_array.py, combine_qr_code_data
* `decode_qr_array_to_file`  — qr_code_file_transfer.py, decode_qr_array_to_file
                               (file-system writes are modelled by the returned
                               value: `some w` means exactly the file `w` is
                               written, `none` means no write happens at all)

Regular expressions are embedded by their operational behaviour: `findStrict`
is re.search of IDX:(\d{3}):(.*) with DOTALL (leftmost occurrence of the tag,
then everything after it), `findLegacy` is re.search of ^(\d+):(.*) with
DOTALL.  \d is modelled as the ASCII digits.
-/

abbrev Str := List Char

/-- Numeric value of a decimal digit character. -/
def digitVal (c : Char) : Nat := c.toNat - 48

/-- Decimal digits of a natural number; fuel-based so that it reduces in the
kernel.  The fuel n+1 always suffices. -/
def natDecimalGo : Nat → Nat → Str
  | 0, _ => []
  | fuel + 1, n =>
    if n < 10 then [Nat.digitChar n]
    else natDecimalGo fuel (n / 10) ++ [Nat.digitChar (n % 10)]

def natDecimal (n : Nat) : Str := natDecimalGo (n + 1) n

/-- The Python format specifier 03d applied to a natural number: its decimal
form, left-padded with zeros to at least three characters.  For i < 1000 this
is exactly the three decimal digits of i; for larger i it is the plain decimal
form (03d never truncates). -/
def format03d (i : Nat) : Str :=
  if i < 1000 then
    [Nat.digitChar (i / 100), Nat.digitChar (i / 10 % 10), Nat.digitChar (i % 10)]
  else natDecimal i

/-- The data payload generate_qr_code encodes for a chunk:
"IDX:" + format03d(index) + ":" + text. -/
def text_with_index (text : Str) (index : Nat) : Str :=
  'I' :: 'D' :: 'X' :: ':' :: (format03d index ++ ':' :: text)

/-- Ceiling division (a + b - 1) / b, the value of math.ceil(a / b) for b > 0. -/
def ceilDiv (a b : Nat) : Nat := (a + b - 1) / b

/-- split_text from generate_qr_array.py:
[text[i:i+chunk_size] for i in range(0, len(text), chunk_size)].
The range has ceil(len(text)/chunk_size) elements and its i-th element is
i*chunk_size. -/
def split_text (text : Str) (chunk_size : Nat) : List Str :=
  (List.range (ceilDiv text.length chunk_size)).map
    (fun i => (text.drop (i * chunk_size)).take chunk_size)

/-- Least k with n ≤ k * k, found by upward search (fuel-based so that it
reduces in the kernel; k = n always satisfies the test, so fuel n+1 suffices).
This is the exact value of int(math.ceil(math.sqrt(n))). -/
def ceilSqrtGo (n : Nat) : Nat → Nat → Nat
  | 0, k => k
  | fuel + 1, k => if n ≤ k * k then k else ceilSqrtGo n fuel (k + 1)

def ceilSqrt (n : Nat) : Nat := ceilSqrtGo n (n + 1) 0

/-- arrange_qr_codes_in_array from generate_qr_array.py, abstracted to the
grid logic (the image contents do not influence rows/cols or which cells are
filled).  Returns none for an empty image list, otherwise the derived
(rows, cols) and the list of (row, col) cells that receive an image; the
placement loop breaks as soon as idx reaches rows*cols, mirrored here by
takeWhile. -/
def arrange_qr_codes_in_array (n : Nat) (rows0 cols0 : Option Nat) :
    Option (Nat × Nat × List (Nat × Nat)) :=
  if n = 0 then none
  else
    let rc :=
      match rows0, cols0 with
      | none, none => let c := ceilSqrt n; (ceilDiv n c, c)
      | none, some c => (ceilDiv n c, c)
      | some r, none => (r, ceilDiv n r)
      | some r, some c => (r, c)
    some (rc.1, rc.2,
      ((List.range n).takeWhile (fun idx => decide (idx < rc.1 * rc.2))).map
        (fun idx => (idx / rc.2, idx % rc.2)))

/-- One attempt of the strict pattern IDX:(\d{3}):(.*) at the start of the
string: literal "IDX:", then exactly three digits, then ":", then the
(DOTALL, greedy) remainder. -/
def matchStrictAt (s : Str) : Option (Nat × Str) :=
  match s with
  | a :: b :: c :: d :: e :: f :: g :: k :: t =>
    if a = 'I' ∧ b = 'D' ∧ c = 'X' ∧ d = ':' ∧
       e.isDigit ∧ f.isDigit ∧ g.isDigit ∧ k = ':' then
      some (100 * digitVal e + 10 * digitVal f + digitVal g, t)
    else none
  | _ => none

/-- re.search of IDX:(\d{3}):(.*) with DOTALL: try the pattern at each
position from the left, succeed at the first position where it matches. -/
def findStrict : Str → Option (Nat × Str)
  | [] => none
  | c :: rest =>
    match matchStrictAt (c :: rest) with
    | some r => some r
    | none => findStrict rest

/-- Value of a nonempty string of decimal digits (Python int of a digit
string). -/
def natOfDigits (ds : Str) : Nat := ds.foldl (fun n c => n * 10 + digitVal c) 0

/-- re.search of ^(\d+):(.*) with DOTALL: a nonempty maximal run of leading
digits must be followed by ":"; backtracking inside the run cannot succeed
because every shorter nonempty digit run is followed by a further digit. -/
def findLegacy (s : Str) : Option (Nat × Str) :=
  match s.takeWhile Char.isDigit, s.dropWhile Char.isDigit with
  | [], _ => none
  | ds, ':' :: t => some (natOfDigits ds, t)
  | _, _ => none

/-- The per-string parsing step of combine_qr_code_data: try the strict
format first, then the legacy format.  The index is an integer because the
manual-recovery path below can in principle produce negative indices. -/
def parseFrame (data : Str) : Option (Int × Str) :=
  match findStrict data with
  | some (i, t) => some ((i : Int), t)
  | none =>
    match findLegacy data with
    | some (i, t) => some ((i : Int), t)
    | none => none

/-- Python dict assignment d[k] = v on an insertion-ordered association list:
replace the value in place if the key is present, otherwise append. -/
def dictInsert : List (Int × Str) → Int → Str → List (Int × Str)
  | [], k, v => [(k, v)]
  | (k', v') :: rest, k, v =>
    if k' = k then (k, v) :: rest else (k', v') :: dictInsert rest k v

/-- Python dict lookup. -/
def dictGet : List (Int × Str) → Int → Option Str
  | [], _ => none
  | (k, v) :: rest, i => if k = i then some v else dictGet rest i

/-- Insert a list of (index, text) pairs into a dict in order. -/
def dictFold (qs : List (Int × Str)) (m : List (Int × Str)) : List (Int × Str) :=
  qs.foldl (fun acc p => dictInsert acc p.1 p.2) m

/-- Result of the first loop of combine_qr_code_data: either the early
verbatim return (single unparseable string) or the filled dict. -/
inductive LoopResult where
  | early (s : Str)
  | dict (m : List (Int × Str))
deriving DecidableEq

/-- The first loop of combine_qr_code_data: parse every string, store parsed
(index, text) pairs in the dict; a string matching neither format is skipped,
except that when the whole input list has exactly one element the loop
returns that string verbatim (total carries len(qr_data_list)). -/
def parseLoop (total : Nat) : List Str → List (Int × Str) → LoopResult
  | [], m => .dict m
  | d :: rest, m =>
    match parseFrame d with
    | some (i, t) => parseLoop total rest (dictInsert m i t)
    | none => if total = 1 then .early d else parseLoop total rest m

/-- Python str.startswith('IDX:'). -/
def startsWithIDX (s : Str) : Bool := decide (s.take 4 = ['I', 'D', 'X', ':'])

/-- Split a string at its first ':' (Python str.split(':', 1) when a colon is
present). -/
def splitFirstColon : Str → Option (Str × Str)
  | [] => none
  | c :: rest =>
    if c = ':' then some ([], rest)
    else (splitFirstColon rest).map (fun p => (c :: p.1, p.2))

/-- Python str.isspace-style characters stripped by int(); modelled over the
ASCII whitespace characters. -/
def trimAscii (s : Str) : Str :=
  ((s.dropWhile Char.isWhitespace).reverse.dropWhile Char.isWhitespace).reverse

/-- After the first digit of a Python integer literal: digits, with single
underscores allowed between digits. -/
def digitsTail : Str → Bool
  | [] => true
  | c :: rest =>
    if c = '_' then
      match rest with
      | c2 :: rest2 => c2.isDigit && digitsTail rest2
      | [] => false
    else c.isDigit && digitsTail rest

def pyIntDigits : Str → Bool
  | [] => false
  | c :: rest => c.isDigit && digitsTail rest

/-- Value of a digit-and-underscore string. -/
def natOfDigitsU (ds : Str) : Nat :=
  ds.foldl (fun n c => if c = '_' then n else n * 10 + digitVal c) 0

/-- Python int(str): optional surrounding whitespace, optional single sign,
then decimal digits with optional single underscores between them; none when
int() would raise ValueError. -/
def pyInt (s : Str) : Option Int :=
  match trimAscii s with
  | '+' :: ds => if pyIntDigits ds then some ((natOfDigitsU ds : Nat) : Int) else none
  | '-' :: ds => if pyIntDigits ds then some (-((natOfDigitsU ds : Nat) : Int)) else none
  | ds => if pyIntDigits ds then some ((natOfDigitsU ds : Nat) : Int) else none

/-- The manual-recovery parse of combine_qr_code_data: split on the first two
colons; when that gives three parts whose first is "IDX" and whose second
parses as an int, recover (index, text). -/
def manualParse (d : Str) : Option (Int × Str) :=
  match splitFirstColon d with
  | none => none
  | some (p0, r) =>
    match splitFirstColon r with
    | none => none
    | some (p1, p2) =>
      if p0 = ['I', 'D', 'X'] then (pyInt p1).map (fun i => (i, p2)) else none

/-- The manual-recovery loop of combine_qr_code_data. -/
def manualLoop : List Str → List (Int × Str) → List (Int × Str)
  | [], m => m
  | d :: rest, m =>
    match manualParse d with
    | some (i, t) => manualLoop rest (dictInsert m i t)
    | none => manualLoop rest m

/-- sorted(indexed_data.keys()) followed by the join of the texts in that
order.  Python sorted on integers is modelled by insertion sort; on the
duplicate-free key lists produced here any sort yields the same list. -/
def joinSorted (m : List (Int × Str)) : Str :=
  ((List.insertionSort (fun a b : Int => a ≤ b) (m.map Prod.fst)).map
    (fun k => (dictGet m k).getD [])).flatten

/-- combine_qr_code_data from read_qr_array.py. -/
def combine_qr_code_data (l : List Str) : Option Str :=
  match parseLoop l.length l [] with
  | .early s => some s
  | .dict m =>
    if m.isEmpty then
      let m2 := if l.all startsWithIDX then manualLoop l [] else []
      if m2.isEmpty then
        if l.length = 1 then l.head? else none
      else some (joinSorted m2)
    else some (joinSorted m)

/-- The header literal "QRTEXT:". -/
def qrtextTag : Str := ['Q', 'R', 'T', 'E', 'X', 'T', ':']

/-- The header literal "QRFILE:". -/
def qrfileTag : Str := ['Q', 'R', 'F', 'I', 'L', 'E', ':']

/-- Python str.startswith. -/
def startsWithStr (p s : Str) : Bool := decide (s.take p.length = p)

/-- The residual-index-prefix strip of decode_qr_array_to_file:
re.match(^\d+:(QRTEXT:|QRFILE:)); on a match, drop everything up to and
including the first colon (which ends the digit run). -/
def stripLegacyIndex (s : Str) : Str :=
  match s.takeWhile Char.isDigit with
  | [] => s
  | _ :: _ =>
    match s.dropWhile Char.isDigit with
    | ':' :: r =>
      if startsWithStr qrtextTag r || startsWithStr qrfileTag r then r else s
    | _ => s

/-- Value of a base64 alphabet character. -/
def b64Val (c : Char) : Option Nat :=
  if 65 ≤ c.toNat ∧ c.toNat ≤ 90 then some (c.toNat - 65)
  else if 97 ≤ c.toNat ∧ c.toNat ≤ 122 then some (c.toNat - 97 + 26)
  else if 48 ≤ c.toNat ∧ c.toNat ≤ 57 then some (c.toNat - 48 + 52)
  else if c = '+' then some 62
  else if c = '/' then some 63
  else none

/-- Modelled from the spec: the external base64 collaborator
(Python base64.b64decode), which "fails with Base64DecodeError on malformed
encoding".  RFC 4648 groups of four: each group is four alphabet characters,
or a final group with one or two '=' padding characters; anything else
(wrong length, stray characters, non-final padding) fails. -/
def b64DecodeGroups : Str → Option (List Nat)
  | [] => some []
  | c1 :: c2 :: c3 :: c4 :: rest =>
    match b64Val c1, b64Val c2 with
    | some v1, some v2 =>
      if c3 = '=' then
        if c4 = '=' ∧ rest = [] then some [v1 * 4 + v2 / 16] else none
      else
        match b64Val c3 with
        | some v3 =>
          if c4 = '=' then
            if rest = [] then some [v1 * 4 + v2 / 16, v2 % 16 * 16 + v3 / 4]
            else none
          else
            match b64Val c4 with
            | some v4 =>
              match b64DecodeGroups rest with
              | some bs =>
                some ([v1 * 4 + v2 / 16, v2 % 16 * 16 + v3 / 4, v3 % 4 * 64 + v4] ++ bs)
              | none => none
            | none => none
        | none => none
    | _, _ => none
  | _ => none

def pyB64Decode (s : Str) : Option (List Nat) := b64DecodeGroups s

/-- The file that decode_qr_array_to_file writes: a text file written from
the body (with a byte-order mark, utf-8-sig) or a binary file written from
the base64-decoded bytes. -/
inductive WrittenFile where
  | text (name : Str) (content : Str)
  | binary (name : Str) (content : List Nat)
deriving DecidableEq

/-- decode_qr_array_to_file from qr_code_file_transfer.py, applied to the
combined text (image scanning is external).  The file-system effect is the
returned value: some w means exactly the single complete file w is written;
none means the function returns None before any open/write is executed — in
the source the binary write happens strictly after base64.b64decode
succeeds. -/
def decode_qr_array_to_file (combined_text : Str) : Option WrittenFile :=
  if combined_text = [] then none
  else
    let s := stripLegacyIndex combined_text
    if startsWithStr qrtextTag s then
      match splitFirstColon (s.drop 7) with
      | some (fn, content) => some (WrittenFile.text fn content)
      | none => none
    else if startsWithStr qrfileTag s then
      match splitFirstColon (s.drop 7) with
      | some (fn, content) =>
        match pyB64Decode content with
        | some bytes => some (WrittenFile.binary fn bytes)
        | none => none
      | none => none
    else none

/-! ### Lemmas about the chunker -/

lemma split_text_length (t : Str) (C : Nat) :
    (split_text t C).length = ceilDiv t.length C := by
  simp [split_text]

lemma split_text_nil (C : Nat) : split_text [] C = [] := by
  have h : ceilDiv 0 C = 0 := by
    unfold ceilDiv
    rcases Nat.eq_zero_or_pos C with h | h
    · simp [h]
    · exact Nat.div_eq_of_lt (by omega)
  simp [split_text, h]

lemma split_text_cons (t : Str) (C : Nat) (hC : 0 < C) (ht : t ≠ []) :
    split_text t C = t.take C :: split_text (t.drop C) C := by
  have hL : 1 ≤ t.length := List.length_pos.mpr ht
  have h1 : ceilDiv t.length C = ceilDiv (t.drop C).length C + 1 := by
    unfold ceilDiv
    rw [List.length_drop]
    rcases le_or_lt C t.length with h | h
    · have e1 : t.length - C + C - 1 = t.length - 1 := by omega
      have e2 : t.length + C - 1 = t.length - 1 + C := by omega
      rw [e1, e2, Nat.add_div_right _ hC]
    · have e1 : t.length - C = 0 := by omega
      rw [e1]
      have e2 : (0 + C - 1) / C = 0 := Nat.div_eq_of_lt (by omega)
      have e3 : t.length + C - 1 = t.length - 1 + C := by omega
      rw [e2, e3, Nat.add_div_right _ hC]
      have e4 : (t.length - 1) / C = 0 := Nat.div_eq_of_lt (by omega)
      rw [e4]
  rw [split_text, split_text, h1, List.range_succ_eq_map]
  simp only [List.map_cons, List.map_map, Nat.zero_mul, List.drop_zero]
  refine congrArg (t.take C :: ·) (List.map_congr_left ?_)
  intro i _
  simp only [Function.comp_apply, List.drop_drop]
  congr 2
  rw [Nat.succ_mul]
  omega

lemma split_text_flatten_aux (C : Nat) (hC : 0 < C) :
    ∀ (L : Nat) (t : Str), t.length ≤ L → (split_text t C).flatten = t := by
  intro L
  induction L with
  | zero =>
    intro t ht
    have h : t = [] := by cases t <;> simp_all
    simp [h, split_text_nil]
  | succ L ih =>
    intro t ht
    rcases eq_or_ne t [] with rfl | hne
    · simp [split_text_nil]
    · rw [split_text_cons t C hC hne, List.flatten_cons,
        ih (t.drop C) (by rw [List.length_drop]; omega)]
      exact List.take_append_drop C t

lemma split_text_flatten (t : Str) (C : Nat) (hC : 0 < C) :
    (split_text t C).flatten = t :=
  split_text_flatten_aux C hC t.length t le_rfl

/-! ### Lemmas about the grid layout -/

lemma le_ceilDiv_mul (a b : Nat) (hb : 0 < b) : a ≤ ceilDiv a b * b := by
  unfold ceilDiv
  have h1 := Nat.div_add_mod (a + b - 1) b
  have h2 := Nat.mod_lt (a + b - 1) hb
  have h3 : (a + b - 1) / b * b = b * ((a + b - 1) / b) := Nat.mul_comm _ _
  omega

lemma ceilSqrtGo_ge (n : Nat) : ∀ (fuel k : Nat), k ≤ ceilSqrtGo n fuel k := by
  intro fuel
  induction fuel with
  | zero => intro k; exact le_rfl
  | succ fuel ih =>
    intro k
    rw [ceilSqrtGo]
    by_cases h : n ≤ k * k
    · rw [if_pos h]
    · rw [if_neg h]
      exact (Nat.le_succ k).trans (ih (k + 1))

lemma ceilSqrt_pos (n : Nat) (hn : 0 < n) : 0 < ceilSqrt n := by
  unfold ceilSqrt
  rw [ceilSqrtGo, if_neg (by omega : ¬ n ≤ 0 * 0)]
  exact ceilSqrtGo_ge n n 1

lemma takeWhile_range' (m : Nat) :
    ∀ (len s : Nat), (List.range' s len).takeWhile (fun i => decide (i < m)) =
      List.range' s (min len (m - s)) := by
  intro len
  induction len with
  | zero => intro s; simp
  | succ k ih =>
    intro s
    rw [List.range'_succ, List.takeWhile_cons]
    by_cases h : s < m
    · rw [if_pos (by simpa using h)]
      have e : min (k + 1) (m - s) = min k (m - (s + 1)) + 1 := by omega
      rw [ih (s + 1), e, List.range'_succ]
    · rw [if_neg (by simpa using h)]
      have e : min (k + 1) (m - s) = 0 := by omega
      rw [e]
      rfl

lemma takeWhile_range_length (n m : Nat) :
    ((List.range n).takeWhile (fun i => decide (i < m))).length = min n m := by
  rw [List.range_eq_range', takeWhile_range' m n 0]
  simp

/-- C5: chunker contract.  For chunk_size C > 0, split_text returns exactly
ceil(len(t)/C) chunks, chunk i is the substring of t covering offsets
[i*C, min((i+1)*C, len t)) (here: take C of drop (i*C)), the empty string
yields zero chunks, and concatenating the chunks in order reproduces t. -/
theorem split_text_contract (t : Str) (C : Nat) (hC : 0 < C) :
    (split_text t C).length = ceilDiv t.length C ∧
    (∀ i (h : i < (split_text t C).length),
      (split_text t C).get ⟨i, h⟩ = (t.drop (i * C)).take C) ∧
    split_text ([] : Str) C = [] ∧
    (split_text t C).flatten = t := by
  refine ⟨split_text_length t C, ?_, split_text_nil C, split_text_flatten t C hC⟩
  intro i h
  simp [split_text]

/-- Witness for C5 at t = "abcde", C = 2 (chunks ab, cd, e). -/
theorem split_text_contract_witness :
    0 < 2 ∧
    ((split_text ("abcde".data) 2).length = ceilDiv ("abcde".data).length 2 ∧
     (∀ i (h : i < (split_text ("abcde".data) 2).length),
       (split_text ("abcde".data) 2).get ⟨i, h⟩ = (("abcde".data).drop (i * 2)).take 2) ∧
     split_text ([] : Str) 2 = [] ∧
     (split_text ("abcde".data) 2).flatten = "abcde".data) :=
  ⟨by decide, split_text_contract ("abcde".data) 2 (by decide)⟩

/-- C9: automatic grid dimensioning.  For a non-empty image list of length n:
with neither rows nor cols supplied, cols = ceil(sqrt n) and
rows = ceil(n / cols); with exactly one of them supplied (positive), the
other is derived by ceiling division. -/
theorem grid_auto_dimensions (n r c : Nat) (hn : 0 < n) (hr : 0 < r) (hc : 0 < c) :
    (∃ pl, arrange_qr_codes_in_array n none none =
        some (ceilDiv n (ceilSqrt n), ceilSqrt n, pl)) ∧
    (∃ pl, arrange_qr_codes_in_array n none (some c) = some (ceilDiv n c, c, pl)) ∧
    (∃ pl, arrange_qr_codes_in_array n (some r) none = some (r, ceilDiv n r, pl)) := by
  have hn' : ¬ n = 0 := by omega
  refine
    ⟨⟨((List.range n).takeWhile
          (fun idx => decide (idx < ceilDiv n (ceilSqrt n) * ceilSqrt n))).map
        (fun idx => (idx / ceilSqrt n, idx % ceilSqrt n)), ?_⟩,
     ⟨((List.range n).takeWhile (fun idx => decide (idx < ceilDiv n c * c))).map
        (fun idx => (idx / c, idx % c)), ?_⟩,
     ⟨((List.range n).takeWhile (fun idx => decide (idx < r * ceilDiv n r))).map
        (fun idx => (idx / ceilDiv n r, idx % ceilDiv n r)), ?_⟩⟩ <;>
    simp [arrange_qr_codes_in_array, hn']

/-- Witness for C9 at n = 7 (and r = c = 1): cols = ceil(sqrt 7) = 3 and
rows = ceil(7/3) = 3, as in the spec example. -/
theorem grid_auto_dimensions_witness :
    0 < 7 ∧ ceilSqrt 7 = 3 ∧ ceilDiv 7 3 = 3 ∧
    (∃ pl, arrange_qr_codes_in_array 7 none none =
        some (ceilDiv 7 (ceilSqrt 7), ceilSqrt 7, pl)) :=
  ⟨by decide, by decide, by decide, (grid_auto_dimensions 7 1 1 (by decide) (by decide) (by decide)).1⟩

/-- C3 counterexample: with BOTH rows and cols caller-supplied and
rows*cols < N, images are dropped: for 2 images and a supplied 1x1 grid only
one cell is filled, so the grid capacity invariant rows*cols >= N fails and
one image is never placed. -/
theorem arrange_drops_image_on_supplied_1x1 :
    arrange_qr_codes_in_array 2 (some 1) (some 1) = some (1, 1, [(0, 0)]) ∧
    ¬ (2 ≤ 1 * 1) := by decide

/-- C3 amended: the capacity invariant rows*cols >= N (and hence: every one
of the N images is placed) holds whenever at least one of rows/cols is
derived rather than caller-supplied, any supplied value being positive. -/
theorem arrange_capacity_when_derived (n : Nat) (rows0 cols0 : Option Nat) (hn : 0 < n)
    (hone : rows0 = none ∨ cols0 = none)
    (hr : ∀ r, rows0 = some r → 0 < r) (hc : ∀ c, cols0 = some c → 0 < c) :
    ∃ rows cols pl, arrange_qr_codes_in_array n rows0 cols0 = some (rows, cols, pl) ∧
      n ≤ rows * cols ∧ pl.length = n := by
  have hn' : ¬ n = 0 := by omega
  rcases rows0 with _ | r <;> rcases cols0 with _ | c
  · have hcpos := ceilSqrt_pos n hn
    have hcap : n ≤ ceilDiv n (ceilSqrt n) * ceilSqrt n := le_ceilDiv_mul n _ hcpos
    refine ⟨ceilDiv n (ceilSqrt n), ceilSqrt n,
      ((List.range n).takeWhile
          (fun idx => decide (idx < ceilDiv n (ceilSqrt n) * ceilSqrt n))).map
        (fun idx => (idx / ceilSqrt n, idx % ceilSqrt n)), ?_, hcap, ?_⟩
    · simp [arrange_qr_codes_in_array, hn']
    · rw [List.length_map, takeWhile_range_length]
      omega
  · have hcpos : 0 < c := hc c rfl
    have hcap : n ≤ ceilDiv n c * c := le_ceilDiv_mul n c hcpos
    refine ⟨ceilDiv n c, c,
      ((List.range n).takeWhile (fun idx => decide (idx < ceilDiv n c * c))).map
        (fun idx => (idx / c, idx % c)), ?_, hcap, ?_⟩
    · simp [arrange_qr_codes_in_array, hn']
    · rw [List.length_map, takeWhile_range_length]
      omega
  · have hrpos : 0 < r := hr r rfl
    have hcap : n ≤ r * ceilDiv n r := by
      have h := le_ceilDiv_mul n r hrpos
      rw [Nat.mul_comm]
      exact h
    refine ⟨r, ceilDiv n r,
      ((List.range n).takeWhile (fun idx => decide (idx < r * ceilDiv n r))).map
        (fun idx => (idx / ceilDiv n r, idx % ceilDiv n r)), ?_, hcap, ?_⟩
    · simp [arrange_qr_codes_in_array, hn']
    · rw [List.length_map, takeWhile_range_length]
      omega
  · rcases hone with h | h <;> exact absurd h (by simp)

/-! ### Lemmas about frame tagging and parsing -/

lemma digitChar_isDigit {d : Nat} (h : d < 10) : (Nat.digitChar d).isDigit = true := by
  interval_cases d <;> decide

lemma digitVal_digitChar {d : Nat} (h : d < 10) : digitVal (Nat.digitChar d) = d := by
  interval_cases d <;> decide

lemma format03d_eq_digits {i : Nat} (h : i ≤ 999) :
    format03d i =
      [Nat.digitChar (i / 100), Nat.digitChar (i / 10 % 10), Nat.digitChar (i % 10)] := by
  unfold format03d
  rw [if_pos (by omega)]

lemma matchStrictAt_tag {i : Nat} (h : i ≤ 999) (t : Str) :
    matchStrictAt (text_with_index t i) = some (i, t) := by
  have h1 : i / 100 < 10 := by omega
  have h2 : i / 10 % 10 < 10 := by omega
  have h3 : i % 10 < 10 := by omega
  rw [text_with_index, format03d_eq_digits h]
  show matchStrictAt ('I' :: 'D' :: 'X' :: ':' :: Nat.digitChar (i / 100) ::
    Nat.digitChar (i / 10 % 10) :: Nat.digitChar (i % 10) :: ':' :: t) = some (i, t)
  simp only [matchStrictAt]
  rw [if_pos ⟨trivial, trivial, trivial, trivial, digitChar_isDigit h1,
    digitChar_isDigit h2, digitChar_isDigit h3, trivial⟩]
  rw [digitVal_digitChar h1, digitVal_digitChar h2, digitVal_digitChar h3]
  simp only [Option.some.injEq, Prod.mk.injEq]
  refine ⟨by omega, trivial⟩

lemma findStrict_cons (c : Char) (rest : Str) :
    findStrict (c :: rest) =
      match matchStrictAt (c :: rest) with
      | some r => some r
      | none => findStrict rest := rfl

lemma findStrict_tag {i : Nat} (h : i ≤ 999) (t : Str) :
    findStrict (text_with_index t i) = some (i, t) := by
  have hm := matchStrictAt_tag h t
  unfold text_with_index at hm ⊢
  rw [findStrict_cons, hm]

lemma parseFrame_tag {i : Nat} (h : i ≤ 999) (t : Str) :
    parseFrame (text_with_index t i) = some ((i : Int), t) := by
  simp only [parseFrame, findStrict_tag h]

/-! ### Lemmas about the dict and the parse loop -/

lemma dictGet_insert (m : List (Int × Str)) (k : Int) (v : Str) (i : Int) :
    dictGet (dictInsert m k v) i = if k = i then some v else dictGet m i := by
  induction m with
  | nil => simp [dictInsert, dictGet]
  | cons p rest ih =>
    obtain ⟨k', v'⟩ := p
    by_cases h1 : k' = k
    · subst h1
      simp only [dictInsert, if_pos, dictGet]
      by_cases h2 : k' = i <;> simp [h2]
    · simp only [dictInsert, if_neg h1, dictGet, ih]
      by_cases h2 : k' = i <;> by_cases h3 : k = i
      · exact absurd (h2.trans h3.symm) h1
      · simp [h2, h3]
      · simp [h2, h3]
      · simp [h2, h3]

lemma dictInsert_fresh {m : List (Int × Str)} {k : Int} (h : ∀ p ∈ m, p.1 ≠ k) (v : Str) :
    dictInsert m k v = m ++ [(k, v)] := by
  induction m with
  | nil => rfl
  | cons p rest ih =>
    obtain ⟨k', v'⟩ := p
    have hne : k' ≠ k := h (k', v') (List.mem_cons_self _ _)
    simp only [dictInsert, if_neg hne, List.cons_append, List.cons.injEq, true_and]
    exact ih (fun p hp => h p (List.mem_cons_of_mem _ hp))

lemma dictFold_cons (q : Int × Str) (qs m : List (Int × Str)) :
    dictFold (q :: qs) m = dictFold qs (dictInsert m q.1 q.2) := rfl

lemma dictFold_of_nodup :
    ∀ (qs m : List (Int × Str)), (∀ p ∈ m, ∀ q ∈ qs, p.1 ≠ q.1) →
      (qs.map Prod.fst).Nodup → dictFold qs m = m ++ qs := by
  intro qs
  induction qs with
  | nil => intro m _ _; simp [dictFold]
  | cons q qs ih =>
    intro m hdisj hnd
    simp only [List.map_cons, List.nodup_cons] at hnd
    have hfresh : ∀ p ∈ m, p.1 ≠ q.1 :=
      fun p hp => hdisj p hp q (List.mem_cons_self _ _)
    rw [dictFold_cons, dictInsert_fresh hfresh]
    rw [ih (m ++ [(q.1, q.2)]) ?_ hnd.2]
    · simp
    · intro p hp q' hq'
      rcases List.mem_append.mp hp with hmem | hmem
      · exact hdisj p hmem q' (List.mem_cons_of_mem _ hq')
      · simp only [List.mem_singleton] at hmem
        subst hmem
        intro hcontra
        exact hnd.1 (hcontra ▸ List.mem_map_of_mem Prod.fst hq')

lemma dictGet_of_mem :
    ∀ {m : List (Int × Str)}, (m.map Prod.fst).Nodup →
      ∀ {k : Int} {v : Str}, (k, v) ∈ m → dictGet m k = some v := by
  intro m
  induction m with
  | nil => intro _ k v hv; simp at hv
  | cons p rest ih =>
    intro hnd k v hv
    obtain ⟨k', v'⟩ := p
    simp only [List.map_cons, List.nodup_cons] at hnd
    rcases List.mem_cons.mp hv with h | h
    · obtain ⟨h1, h2⟩ := Prod.mk.injEq .. ▸ h
      subst h1; subst h2
      simp [dictGet]
    · have hne : k' ≠ k := by
        intro hcontra
        exact hnd.1 (hcontra ▸ List.mem_map_of_mem Prod.fst h)
      simp only [dictGet, if_neg hne]
      exact ih hnd.2 h

lemma parseLoop_nil (total : Nat) (m : List (Int × Str)) :
    parseLoop total [] m = .dict m := rfl

lemma parseLoop_ne_one {total : Nat} (h : total ≠ 1) :
    ∀ (l : List Str) (m : List (Int × Str)),
      parseLoop total l m = .dict (dictFold (l.filterMap parseFrame) m) := by
  intro l
  induction l with
  | nil => intro m; simp [parseLoop, dictFold]
  | cons d rest ih =>
    intro m
    cases hp : parseFrame d with
    | none =>
      simp only [parseLoop, hp, if_neg h, List.filterMap_cons, ih]
    | some q =>
      obtain ⟨qi, qt⟩ := q
      simp only [parseLoop, hp, List.filterMap_cons, ih, dictFold_cons]

lemma parseLoop_all_parse (total : Nat) :
    ∀ (l : List Str) (m : List (Int × Str)),
      (∀ d ∈ l, (parseFrame d).isSome) →
      parseLoop total l m = .dict (dictFold (l.filterMap parseFrame) m) := by
  intro l
  induction l with
  | nil => intro m _; simp [parseLoop, dictFold]
  | cons d rest ih =>
    intro m hall
    obtain ⟨q, hq⟩ := Option.isSome_iff_exists.mp (hall d (List.mem_cons_self _ _))
    obtain ⟨qi, qt⟩ := q
    simp only [parseLoop, hq, List.filterMap_cons, dictFold_cons,
      ih (dictInsert m qi qt) (fun d hd => hall d (List.mem_cons_of_mem _ hd))]

lemma dictGet_dictFold (i : Int) :
    ∀ (qs m : List (Int × Str)),
      dictGet (dictFold qs m) i =
        match ((qs.filter (fun p => decide (p.1 = i))).map Prod.snd).getLast? with
        | some v => some v
        | none => dictGet m i := by
  intro qs
  induction qs with
  | nil => intro m; simp [dictFold]
  | cons q qs ih =>
    intro m
    rw [dictFold_cons, ih]
    by_cases hq : q.1 = i
    · rw [List.filter_cons_of_pos (by simpa using hq)]
      cases hlast : ((qs.filter (fun p => decide (p.1 = i))).map Prod.snd).getLast? with
      | some v =>
        obtain ⟨b, L, hbl⟩ :
            ∃ b L, (qs.filter (fun p => decide (p.1 = i))).map Prod.snd = b :: L := by
          rcases hL2 : (qs.filter (fun p => decide (p.1 = i))).map Prod.snd with _ | ⟨b, L⟩
          · rw [hL2] at hlast; simp at hlast
          · exact ⟨b, L, hL2⟩
        rw [hbl] at hlast
        rw [List.map_cons, hbl, List.getLast?_cons_cons, hlast]
      | none =>
        have hL : (qs.filter (fun p => decide (p.1 = i))).map Prod.snd = [] := by
          rcases hL2 : (qs.filter (fun p => decide (p.1 = i))).map Prod.snd with _ | ⟨b, L⟩
          · exact hL2
          · rw [hL2] at hlast; simp at hlast
        rw [List.map_cons, hL, List.getLast?_singleton]
        rw [dictGet_insert, if_pos hq]
    · rw [List.filter_cons_of_neg (by simpa using hq)]
      cases hlast : ((qs.filter (fun p => decide (p.1 = i))).map Prod.snd).getLast? with
      | some v => rfl
      | none =>
        rw [dictGet_insert, if_neg hq]

lemma filterMap_parse_frames :
    ∀ (ps : List (Nat × Str)), (∀ p ∈ ps, p.1 ≤ 999) →
      (ps.map (fun p => text_with_index p.2 p.1)).filterMap parseFrame =
        ps.map (fun p => ((p.1 : Int), p.2)) := by
  intro ps
  induction ps with
  | nil => intro _; simp
  | cons p ps ih =>
    intro h
    simp only [List.map_cons, List.filterMap_cons,
      parseFrame_tag (h p (List.mem_cons_self _ _)),
      ih (fun q hq => h q (List.mem_cons_of_mem _ hq))]

/-- C4 (amended to non-empty frame lists): for every non-empty collection of
well-formed current-format frames with pairwise distinct indices (listed here
as index-ascending pairs ps with three-digit indices), presented to combine
in ANY order (any permutation l of the frame strings) and with any possibly
non-contiguous index set, combine succeeds and returns the concatenation of
the frame texts in ascending index order. -/
theorem combine_distinct_frames_sorted (ps : List (Nat × Str)) (l : List Str)
    (hne : ps ≠ [])
    (hle : ∀ p ∈ ps, p.1 ≤ 999)
    (hsorted : (ps.map Prod.fst).Sorted (· < ·))
    (hperm : l.Perm (ps.map (fun p => text_with_index p.2 p.1))) :
    combine_qr_code_data l = some ((ps.map Prod.snd).flatten) := by
  have hqs_perm : (l.filterMap parseFrame).Perm (ps.map (fun p => ((p.1 : Int), p.2))) := by
    rw [← filterMap_parse_frames ps hle]
    exact hperm.filterMap parseFrame
  have hall : ∀ d ∈ l, (parseFrame d).isSome := by
    intro d hd
    rcases List.mem_map.mp (hperm.mem_iff.mp hd) with ⟨p, hp, hdp⟩
    rw [← hdp, parseFrame_tag (hle p hp)]
    rfl
  have hkeys : (ps.map (fun p => ((p.1 : Int), p.2))).map Prod.fst =
      (ps.map Prod.fst).map (fun n : Nat => (n : Int)) := by
    rw [List.map_map, List.map_map]
    rfl
  have hsorted_int : ((ps.map (fun p => ((p.1 : Int), p.2))).map Prod.fst).Sorted (· < ·) := by
    rw [hkeys]
    exact hsorted.map _ (fun a b hab => by exact_mod_cast hab)
  have hnd_int : ((ps.map (fun p => ((p.1 : Int), p.2))).map Prod.fst).Nodup :=
    hsorted_int.imp (fun hab => ne_of_lt hab)
  have hnd_qs : ((l.filterMap parseFrame).map Prod.fst).Nodup :=
    ((hqs_perm.map Prod.fst).nodup_iff).mpr hnd_int
  have hloop : parseLoop l.length l [] = .dict (dictFold (l.filterMap parseFrame) []) :=
    parseLoop_all_parse l.length l [] hall
  have hfold : dictFold (l.filterMap parseFrame) [] = l.filterMap parseFrame := by
    rw [dictFold_of_nodup _ [] (by simp) hnd_qs]
    simp
  have hqs_ne : l.filterMap parseFrame ≠ [] := by
    intro hnil
    rw [hnil] at hqs_perm
    exact hne (List.map_eq_nil_iff.mp hqs_perm.symm.eq_nil)
  have hempty : (l.filterMap parseFrame).isEmpty = false := by
    cases hq : l.filterMap parseFrame with
    | nil => exact absurd hq hqs_ne
    | cons a as => rfl
  simp only [combine_qr_code_data, hloop, hfold]
  rw [if_neg (by simp [hempty])]
  refine congrArg some ?_
  simp only [joinSorted]
  have hsort_eq :
      List.insertionSort (fun a b : Int => a ≤ b) ((l.filterMap parseFrame).map Prod.fst) =
        (ps.map (fun p => ((p.1 : Int), p.2))).map Prod.fst := by
    exact @List.eq_of_perm_of_sorted ℤ (fun a b : Int => a ≤ b) _ _ _
      ((List.perm_insertionSort _ _).trans (hqs_perm.map Prod.fst))
      (List.sorted_insertionSort _ _)
      (hsorted_int.imp (fun hab => le_of_lt hab))
  rw [hsort_eq, hkeys]
  rw [List.map_map, List.map_map]
  refine congrArg List.flatten (List.map_congr_left ?_)
  intro p hp
  have hmem : ((p.1 : Int), p.2) ∈ l.filterMap parseFrame :=
    hqs_perm.mem_iff.mpr (List.mem_map_of_mem _ hp)
  show (dictGet (l.filterMap parseFrame) ((p.1 : Int))).getD [] = p.2
  rw [dictGet_of_mem hnd_qs hmem]
  rfl

/-- C4 counterexample (empty list): the claim quantifies over EVERY list of
well-formed frames, but for the empty list combine does not succeed with the
empty concatenation — it returns failure (None). -/
theorem combine_empty_list_fails : combine_qr_code_data [] = none := by decide

/-- Witness for C4 on the spec examples: the out-of-order frames
IDX:002:C, IDX:000:A, IDX:001:B combine to "ABC", and the gapped index set
0, 1, 3 combines to the concatenation of its three texts with no error. -/
theorem combine_distinct_frames_sorted_witness :
    combine_qr_code_data [("IDX:002:C".data), ("IDX:000:A".data), ("IDX:001:B".data)] =
      some ("ABC".data) ∧
    combine_qr_code_data [("IDX:000:A".data), ("IDX:001:B".data), ("IDX:003:D".data)] =
      some ("ABD".data) :=
  ⟨by
    have h := combine_distinct_frames_sorted
      [(0, "A".data), (1, "B".data), (2, "C".data)]
      [("IDX:002:C".data), ("IDX:000:A".data), ("IDX:001:B".data)]
      (by decide) (by decide) (by decide) (by decide)
    simpa using h,
   by
    have h := combine_distinct_frames_sorted
      [(0, "A".data), (1, "B".data), (3, "D".data)]
      [("IDX:000:A".data), ("IDX:001:B".data), ("IDX:003:D".data)]
      (by decide) (by decide) (by decide) (by decide)
    simpa using h⟩

/-- C2 (amended): full pipeline identity for every NON-EMPTY string T and
chunk size C > 0 that produce at most 1000 chunks (so that every index fits
the three-digit current format): splitting T, tagging chunk i with
IDX:%03d: and combining the frames returns exactly T. -/
theorem roundtrip_identity (T : Str) (C : Nat) (hT : T ≠ []) (hC : 0 < C)
    (hcount : (split_text T C).length ≤ 1000) :
    combine_qr_code_data
      (((split_text T C).enum).map (fun p => text_with_index p.2 p.1)) = some T := by
  have hlen : 0 < (split_text T C).length := by
    rw [split_text_length]
    unfold ceilDiv
    have h1 : 0 < T.length := List.length_pos.mpr hT
    exact Nat.div_pos (by omega) hC
  have hne : (split_text T C).enum ≠ [] := by
    intro h
    have := congrArg List.length h
    simp only [List.enum_length, List.length_nil] at this
    omega
  have hle : ∀ p ∈ (split_text T C).enum, p.1 ≤ 999 := by
    intro p hp
    have h1 : p.1 ∈ ((split_text T C).enum).map Prod.fst := List.mem_map_of_mem _ hp
    rw [List.enum_map_fst] at h1
    have := List.mem_range.mp h1
    omega
  have hsorted : (((split_text T C).enum).map Prod.fst).Sorted (· < ·) := by
    rw [List.enum_map_fst]
    exact List.sorted_lt_range _
  have h := combine_distinct_frames_sorted ((split_text T C).enum) _ hne hle hsorted
    (List.Perm.refl _)
  rw [h, List.enum_map_snd, split_text_flatten T C hC]

/-- C2 counterexample: for the empty string T the pipeline does not return T.
split_text gives zero chunks, hence zero frames, and combine of the empty
list returns failure (None) rather than the empty string. -/
theorem roundtrip_fails_on_empty :
    combine_qr_code_data
      (((split_text ([] : Str) 1).enum).map (fun p => text_with_index p.2 p.1)) = none := by
  decide

/-- Witness for C2 (amended) at T = "ab", C = 1. -/
theorem roundtrip_identity_witness :
    ("ab".data ≠ ([] : Str)) ∧ 0 < 1 ∧ (split_text ("ab".data) 1).length ≤ 1000 ∧
    combine_qr_code_data
      (((split_text ("ab".data) 1).enum).map (fun p => text_with_index p.2 p.1)) =
      some ("ab".data) :=
  ⟨by decide, by decide, by decide,
    roundtrip_identity ("ab".data) 1 (by decide) (by decide) (by decide)⟩

/-- C6: duplicate-index policy is last-write-wins.  For every input list
(of length other than one, so the single-string shortcut does not apply) the
first loop of combine fills its index-to-text dict, and the dict maps every
index to the text of the LAST frame in input order that parses to that
index. -/
theorem combine_duplicate_last_write_wins (l : List Str) (h : l.length ≠ 1) (i : Int) :
    parseLoop l.length l [] = LoopResult.dict (dictFold (l.filterMap parseFrame) []) ∧
    dictGet (dictFold (l.filterMap parseFrame) []) i =
      (((l.filterMap parseFrame).filter (fun p => decide (p.1 = i))).map Prod.snd).getLast? := by
  refine ⟨parseLoop_ne_one h l [], ?_⟩
  rw [dictGet_dictFold]
  cases hlast : (((l.filterMap parseFrame).filter (fun p => decide (p.1 = i))).map
      Prod.snd).getLast? with
  | some v => rfl
  | none => rfl

/-- Witness for C6 on the spec example: for IDX:000:A followed by IDX:000:B
the dict maps index 0 to "B" (the later-seen frame) and combine yields "B". -/
theorem combine_duplicate_last_write_wins_witness :
    combine_qr_code_data [("IDX:000:A".data), ("IDX:000:B".data)] = some ("B".data) ∧
    dictGet (dictFold ([("IDX:000:A".data), ("IDX:000:B".data)].filterMap parseFrame) []) 0 =
      (((([("IDX:000:A".data), ("IDX:000:B".data)].filterMap parseFrame).filter
        (fun p => decide (p.1 = 0))).map Prod.snd).getLast?) :=
  ⟨by decide,
    (combine_duplicate_last_write_wins [("IDX:000:A".data), ("IDX:000:B".data)]
      (by decide) 0).2⟩

/-- C7: single-chunk shortcut.  When the input list contains exactly one raw
string and it matches neither the current nor the legacy frame format,
combine returns that string verbatim as the full payload. -/
theorem combine_single_unparsed_verbatim (s : Str) (h : parseFrame s = none) :
    combine_qr_code_data [s] = some s := by
  simp [combine_qr_code_data, parseLoop, h]

/-- Witness for C7 at the spec example combine(["hello"]) = "hello". -/
theorem combine_single_unparsed_verbatim_witness :
    parseFrame ("hello".data) = none ∧
    combine_qr_code_data [("hello".data)] = some ("hello".data) :=
  ⟨by decide, combine_single_unparsed_verbatim ("hello".data) (by decide)⟩

/-- C1: the frame-tagging operation has NO index-overflow check.  At chunk
index 1000 it does not fail with IndexOverflow; it silently produces the
frame "IDX:1000:" + text, whose four-digit index then no longer matches the
strict three-digit parse of the decode side (parseFrame rejects it), so the
documented fixed-three-digit format is violated. -/
theorem tag_index_1000_no_failure :
    text_with_index ("x".data) 1000 = "IDX:1000:x".data ∧
    parseFrame (text_with_index ("x".data) 1000) = none := by decide

/-! ### Lemmas for the unanchored strict search -/

lemma matchStrictAt_append_none {s : Str} (h8 : 8 ≤ s.length)
    (h : matchStrictAt s = none) (x : Str) : matchStrictAt (s ++ x) = none := by
  rcases s with _ | ⟨a, _ | ⟨b, _ | ⟨c, _ | ⟨d, _ | ⟨e, _ | ⟨f, _ | ⟨g, _ | ⟨k, t⟩⟩⟩⟩⟩⟩⟩⟩ <;>
    simp only [List.length_cons, List.length_nil] at h8
  all_goals try omega
  simp only [List.cons_append]
  simp only [matchStrictAt] at h ⊢
  by_cases hc : a = 'I' ∧ b = 'D' ∧ c = 'X' ∧ d = ':' ∧
      e.isDigit = true ∧ f.isDigit = true ∧ g.isDigit = true ∧ k = ':'
  · rw [if_pos hc] at h
    exact absurd h (by simp)
  · rw [if_neg hc]

lemma matchStrictAt_straddle {w : Str} (hw : w ≠ []) (h7 : w.length ≤ 7)
    (d1 d2 d3 : Char) (t : Str) :
    matchStrictAt (w ++ 'I' :: 'D' :: 'X' :: ':' :: d1 :: d2 :: d3 :: ':' :: t) = none := by
  rcases w with _ | ⟨a, _ | ⟨b, _ | ⟨c, _ | ⟨d, _ | ⟨e, _ | ⟨f, _ | ⟨g, rest⟩⟩⟩⟩⟩⟩⟩
  · exact absurd rfl hw
  · simp only [List.cons_append, List.nil_append, matchStrictAt]
    rw [if_neg]
    rintro ⟨-, hbad, -⟩
    exact absurd hbad (by decide)
  · simp only [List.cons_append, List.nil_append, matchStrictAt]
    rw [if_neg]
    rintro ⟨-, -, hbad, -⟩
    exact absurd hbad (by decide)
  · simp only [List.cons_append, List.nil_append, matchStrictAt]
    rw [if_neg]
    rintro ⟨-, -, -, hbad, -⟩
    exact absurd hbad (by decide)
  · simp only [List.cons_append, List.nil_append, matchStrictAt]
    rw [if_neg]
    rintro ⟨-, -, -, -, hbad, -⟩
    exact absurd hbad (by decide)
  · simp only [List.cons_append, List.nil_append, matchStrictAt]
    rw [if_neg]
    rintro ⟨-, -, -, -, -, hbad, -⟩
    exact absurd hbad (by decide)
  · simp only [List.cons_append, List.nil_append, matchStrictAt]
    rw [if_neg]
    rintro ⟨-, -, -, -, -, -, hbad, -⟩
    exact absurd hbad (by decide)
  · have hrest : rest = [] := by
      simp only [List.length_cons] at h7
      exact List.length_eq_zero.mp (by omega)
    subst hrest
    simp only [List.cons_append, List.nil_append, matchStrictAt]
    rw [if_neg]
    rintro ⟨-, -, -, -, -, -, -, hbad⟩
    exact absurd hbad (by decide)

lemma findStrict_append_tag {d1 d2 d3 : Char}
    (h1 : d1.isDigit = true) (h2 : d2.isDigit = true) (h3 : d3.isDigit = true) (t : Str) :
    ∀ pre : Str, findStrict pre = none →
      findStrict (pre ++ 'I' :: 'D' :: 'X' :: ':' :: d1 :: d2 :: d3 :: ':' :: t) =
        some (100 * digitVal d1 + 10 * digitVal d2 + digitVal d3, t) := by
  intro pre
  induction pre with
  | nil =>
    intro _
    rw [List.nil_append, findStrict_cons]
    have hm : matchStrictAt ('I' :: 'D' :: 'X' :: ':' :: d1 :: d2 :: d3 :: ':' :: t) =
        some (100 * digitVal d1 + 10 * digitVal d2 + digitVal d3, t) := by
      simp only [matchStrictAt]
      rw [if_pos ⟨trivial, trivial, trivial, trivial, h1, h2, h3, trivial⟩]
    rw [hm]
  | cons c pre ih =>
    intro hpre
    rw [findStrict_cons] at hpre
    cases hm : matchStrictAt (c :: pre) with
    | some r => rw [hm] at hpre; simp at hpre
    | none =>
      rw [hm] at hpre
      simp only at hpre
      rw [List.cons_append, findStrict_cons]
      have hnone :
          matchStrictAt (c :: (pre ++ 'I' :: 'D' :: 'X' :: ':' :: d1 :: d2 :: d3 :: ':' :: t)) =
            none := by
        rcases le_or_lt 8 (c :: pre).length with h8 | h8
        · have := matchStrictAt_append_none h8 hm
            ('I' :: 'D' :: 'X' :: ':' :: d1 :: d2 :: d3 :: ':' :: t)
          simpa [List.cons_append] using this
        · have := matchStrictAt_straddle (w := c :: pre) (by simp)
            (by simp only [List.length_cons] at h8 ⊢; omega) d1 d2 d3 t
          simpa [List.cons_append] using this
      rw [hnone]
      exact ih hpre

/-- C10 (implicit): current-format matching is by unanchored substring
search.  For every raw string of the form pre ++ "IDX:" ++ three digits ++
":" ++ t, where pre contains no complete current-format tag (so the explicit
tag is the leftmost match), combine's per-string parse accepts it as a frame
whose index is the three digits and whose text is everything after the tag,
silently discarding all of pre. -/
theorem strict_tag_substring_search (pre : Str) (d1 d2 d3 : Char) (t : Str)
    (hpre : findStrict pre = none)
    (h1 : d1.isDigit = true) (h2 : d2.isDigit = true) (h3 : d3.isDigit = true) :
    parseFrame (pre ++ 'I' :: 'D' :: 'X' :: ':' :: d1 :: d2 :: d3 :: ':' :: t) =
      some (((100 * digitVal d1 + 10 * digitVal d2 + digitVal d3 : Nat) : Int), t) := by
  simp only [parseFrame, findStrict_append_tag h1 h2 h3 t pre hpre]

/-- Witness for C10 at the example "noiseIDX:001:A": parsed as index 1 with
text "A", the noise being discarded. -/
theorem strict_tag_substring_search_witness :
    findStrict ("noise".data) = none ∧
    parseFrame (("noise".data) ++ 'I' :: 'D' :: 'X' :: ':' :: '0' :: '0' :: '1' :: ':' :: "A".data) =
      some ((1 : Int), "A".data) :=
  ⟨by decide,
    strict_tag_substring_search ("noise".data) '0' '0' '1' ("A".data)
      (by decide) (by decide) (by decide) (by decide)⟩

/-! ### Lemmas for the envelope decode -/

lemma splitFirstColon_append {fn : Str} (hfn : ':' ∉ fn) (b : Str) :
    splitFirstColon (fn ++ ':' :: b) = some (fn, b) := by
  induction fn with
  | nil => simp [splitFirstColon]
  | cons c fn ih =>
    have hc : ¬ c = ':' := by
      intro h
      exact hfn (h ▸ List.mem_cons_self _ _)
    rw [List.cons_append]
    simp only [splitFirstColon, if_neg hc]
    rw [ih (fun h => hfn (List.mem_cons_of_mem _ h))]
    rfl

lemma stripLegacyIndex_nondigit {c : Char} (hc : c.isDigit = false) (r : Str) :
    stripLegacyIndex (c :: r) = c :: r := by
  unfold stripLegacyIndex
  rw [List.takeWhile_cons, if_neg (by simp [hc])]

/-- C8: for every decoded envelope of the form "QRFILE:" + filename + ":" +
body whose body the base64 decoder rejects, the decode pipeline fails
(returns None) and writes no output file at all: in this model a written
file exists exactly when the result is some, and in the source the binary
write happens strictly after base64.b64decode succeeds. -/
theorem qrfile_bad_base64_writes_nothing (fn body : Str)
    (hfn : ':' ∉ fn) (hbad : pyB64Decode body = none) :
    decode_qr_array_to_file (qrfileTag ++ fn ++ ':' :: body) = none := by
  have hform : qrfileTag ++ fn ++ ':' :: body =
      'Q' :: 'R' :: 'F' :: 'I' :: 'L' :: 'E' :: ':' :: (fn ++ ':' :: body) := by
    simp [qrfileTag]
  rw [hform]
  rw [decode_qr_array_to_file]
  rw [if_neg (by simp)]
  rw [stripLegacyIndex_nondigit (by decide)]
  have h1 : startsWithStr qrtextTag
      ('Q' :: 'R' :: 'F' :: 'I' :: 'L' :: 'E' :: ':' :: (fn ++ ':' :: body)) = false := rfl
  have h2 : startsWithStr qrfileTag
      ('Q' :: 'R' :: 'F' :: 'I' :: 'L' :: 'E' :: ':' :: (fn ++ ':' :: body)) = true := rfl
  simp only [h1, h2, Bool.false_eq_true, if_false, if_true]
  have hdrop : ('Q' :: 'R' :: 'F' :: 'I' :: 'L' :: 'E' :: ':' :: (fn ++ ':' :: body)).drop 7 =
      fn ++ ':' :: body := rfl
  rw [hdrop, splitFirstColon_append hfn]
  show (match pyB64Decode body with
    | some bytes => some (WrittenFile.binary fn bytes)
    | none => none) = none
  rw [hbad]

/-- Witness for C8 at filename "f.bin" and body "ab" (two base64 characters
cannot form a valid group, so both this model and the source decoder reject
the body): the pipeline fails and no file is produced. -/
theorem qrfile_bad_base64_writes_nothing_witness :
    (':' ∉ "f.bin".data) ∧ pyB64Decode ("ab".data) = none ∧
    decode_qr_array_to_file (qrfileTag ++ ("f.bin".data) ++ ':' :: ("ab".data)) = none :=
  ⟨by decide, by decide,
    qrfile_bad_base64_writes_nothing ("f.bin".data) ("ab".data) (by decide) (by decide)⟩

/-- Witness for the amended C3 at n = 2, rows supplied as 1, cols derived:
cols = ceil(2/1) = 2, the grid holds 1*2 >= 2 cells and both images are
placed. -/
theorem arrange_capacity_when_derived_witness :
    0 < 2 ∧ ((none : Option Nat) = none) ∧
    (∃ rows cols pl, arrange_qr_codes_in_array 2 (some 1) none = some (rows, cols, pl) ∧
      2 ≤ rows * cols ∧ pl.length = 2) :=
  ⟨by decide, rfl,
    arrange_capacity_when_derived 2 (some 1) none (by decide) (Or.inr rfl)
      (fun r hr => by simp at hr; omega) (fun c hc => by cases hc)⟩
